import Mathlib

/-!
Verification of the Sten LSB steganography codec (sten.pyw and its two
sibling revisions).  The pixel buffer is modelled as a total function from
pixel index and band index to a channel value; the encode and decode loops
of `encode` / `decode` (sten.pyw lines 278-305 and 358-382) are translated
step by step, with Python string slicing on the binary representation of a
channel byte rendered as `List.take` / `List.drop` on the list of bits.
-/

namespace Sten

/-- Modelled from the spec: the bit-depth constant `B` of the missing
`consts` module.  The spec fixes the bit depth to 8 (one byte per channel),
and the LSB scales run from `B` down to `0`. -/
def B : Nat := 8

/-- Modelled from the spec: the number of LSB scales (`band_scl` has one
scale per RGB band; `RGB` in the sibling revision), always 3. -/
def bandCount : Nat := 3

/-- A pixel buffer: pixel index and band index to channel value.  The image
decoding collaborator yields 8-bit channel values (0..255). -/
abbrev Img := Nat → Nat → Nat

/-- Channel values of the buffer are bytes, as delivered by the image
decoder (`np.array` of PIL `getdata`, mode RGB/RGBA/L). -/
def WellFormed (img : Img) : Prop := ∀ p b, img p b < 256

/-- Big-endian binary representation of the low `w` bits of `v`; equals
Python `format(v, f'0{w}b')` whenever `v < 2 ^ w`. -/
def natToBits : Nat → Nat → List Bool
  | 0, _ => []
  | w + 1, v => natToBits w (v / 2) ++ [decide (v % 2 = 1)]

/-- Big-endian value of a bit string; Python `int(s, 2)`. -/
def bitsToNat (s : List Bool) : Nat :=
  s.foldl (fun a b => 2 * a + cond b 1 0) 0

/-- Characters to bits: `''.join(format(ord(c), f'0{B}b') for c in message)`
(sten.pyw line 283).  A message is a list of character codes. -/
def frameBits (msg : List Nat) : List Bool :=
  msg.flatMap (natToBits B)

/-- Functional update of one channel of one pixel
(`image[pix][band] = ...`, sten.pyw line 303). -/
def writePix (img : Img) (p b v : Nat) : Img :=
  fun p' b' => if p' = p ∧ b' = b then v else img p' b'

/-- The packed bit string of one embedding step (sten.pyw line 300):
`val[:B - lsb] + (_ := bits[i:i + lsb]) + val[B - lsb + len(_):]`. -/
def packBits (val : List Bool) (l : Nat) (chunk : List Bool) : List Bool :=
  val.take (B - l) ++ chunk ++ val.drop (B - l + chunk.length)

/-- The new channel value of one embedding step: `int(pack, 2)` applied to
the packed bit string of the old value `v`. -/
def packVal (v l : Nat) (chunk : List Bool) : Nat :=
  bitsToNat (packBits (natToBits B v) l chunk)

/-- The `(pixel, (band, lsb))` traversal
`itertools.product(pixels, Globals.band_lsb)` (sten.pyw line 294),
flattened to `(pixel, band, lsb)` triples in pixel-major order. -/
def stepsOf (pixels : List Nat) (bandLsb : List (Nat × Nat)) :
    List (Nat × Nat × Nat) :=
  pixels.flatMap fun p => bandLsb.map fun bl => (p, bl.1, bl.2)

/-- The embedding loop of `encode` (sten.pyw lines 293-305).  The cursor
`i` into the fixed bit string is modelled by passing the still unwritten
suffix `bits[i:]`; the loop breaks as soon as the cursor passes the end
(`if i >= bits_len: break`), i.e. when the suffix is empty. -/
def embedGo : Img → List Bool → List (Nat × Nat × Nat) → Img
  | img, _, [] => img
  | img, bits, (p, b, l) :: rest =>
    if bits.isEmpty then img
    else
      embedGo (writePix img p b (packVal (img p b) l (bits.take l)))
        (bits.drop l) rest

/-- Core of `encode` (sten.pyw lines 278-305): append the delimiter to the
(already encrypted) message, convert to bits and run the embedding loop
over the seeded pixel order. -/
def encode (img : Img) (bandLsb : List (Nat × Nat)) (pixels : List Nat)
    (delim msg : List Nat) : Img :=
  embedGo img (frameBits (msg ++ delim)) (stepsOf pixels bandLsb)

/-- The bits one extraction step reads from a channel value
(`format(value, f'0{B}b')[-lsb:]`, sten.pyw line 371).  Python `[-0:]`
returns the whole string, hence the case split on `l = 0`. -/
def readSlot (l v : Nat) : List Bool :=
  let s := natToBits B v
  if l = 0 then s else s.drop (s.length - l)

/-- The extraction loop of `decode` (sten.pyw lines 364-376): stop when the
running message ends with the delimiter, otherwise append the low `lsb`
bits of the channel and pop one character per full group of `B` bits. -/
def extractGo (img : Img) (delim : List Nat) :
    List Bool → List Nat → List (Nat × Nat × Nat) → List Nat
  | _, msg, [] => msg
  | bits, msg, (p, b, l) :: rest =>
    if delim <:+ msg then msg
    else
      if B ≤ (bits ++ readSlot l (img p b)).length then
        extractGo img delim ((bits ++ readSlot l (img p b)).drop B)
          (msg ++ [bitsToNat ((bits ++ readSlot l (img p b)).take B)]) rest
      else
        extractGo img delim (bits ++ readSlot l (img p b)) msg rest

/-- Python `str.removesuffix`. -/
def removeSuffix (msg delim : List Nat) : List Nat :=
  if delim <:+ msg then msg.take (msg.length - delim.length) else msg

/-- Core of `decode` (sten.pyw lines 358-382): run the extraction loop; if
the delimiter occurs in the result return it with the trailing delimiter
removed, otherwise report that no hidden message was found (`none`). -/
def decode (img : Img) (bandLsb : List (Nat × Nat)) (pixels : List Nat)
    (delim : List Nat) : Option (List Nat) :=
  let msg := extractGo img delim [] [] (stepsOf pixels bandLsb)
  if delim <:+: msg then some (removeSuffix msg delim) else none

/-- The character limit of `refresh` (sten.pyw line 576):
`((Picture.pixel * sum(band_lsb.values())) // B) - len(DELIMITER)`,
a Python `int`, hence an integer that may be negative. -/
def chLimit (pixel : Nat) (bandLsb : List (Nat × Nat))
    (delim : List Nat) : Int :=
  ((pixel * (bandLsb.map Prod.snd).sum) / B : Nat) - (delim.length : Int)

/-- The capacity shown at image-open time (sten.pyw line 164):
`(Picture.pixel * len(band_scl)) - len(DELIMITER)`, with `band_scl` the
fixed dictionary of the 3 band scales. -/
def openCapacity (pixel : Nat) (delim : List Nat) : Int :=
  (pixel * bandCount : Nat) - (delim.length : Int)

/-- Guarded encode (sten.pyw lines 266-305): after encryption, a Hill
ciphertext longer than the character limit aborts with an error before the
image is copied and the embedding loop runs.  The cipher itself lives in
the external `crypto` module, so it is abstracted to the ciphertext it
produced and a flag telling whether the selected cipher is Hill. -/
def encodeWithLimit (hill : Bool) (limit : Int) (img : Img)
    (bandLsb : List (Nat × Nat)) (pixels : List Nat)
    (delim ciphertext : List Nat) : Option Img :=
  if hill = true ∧ limit < (ciphertext.length : Int) then none
  else some (encode img bandLsb pixels delim ciphertext)

/-- Python `itertools.product(range n, repeat := k)` in its enumeration
order. -/
def pyProduct (n : Nat) : Nat → List (List Nat)
  | 0 => [[]]
  | k + 1 => (List.range n).flatMap fun a => (pyProduct n k).map (a :: ·)

/-- One brute-force candidate: `tuple(compress(enumerate(t), t))` keeps the
`(band, lsb)` pairs of `t` whose lsb count is non-zero. -/
def compressEnum (t : List Nat) : List (Nat × Nat) :=
  t.enum.filter fun x => x.2 ≠ 0

/-- The brute-force candidate list of the sibling revision (part_000 lines
1257-1259): every distribution of `0..B` bits over the 3 bands. -/
def possibilities : List (List (Nat × Nat)) :=
  (pyProduct (B + 1) bandCount).map compressEnum

/-- One brute-force extraction attempt: the inner loop of `decode`
(part_000 lines 326-336) run with candidate allocation `cand`. -/
def bruteTry (img : Img) (delim : List Nat) (pixels : List Nat)
    (cand : List (Nat × Nat)) : List Nat :=
  extractGo img delim [] [] (stepsOf pixels cand)

/-- The brute-force candidate loop of `decode` (part_000 lines 323-342):
try candidates in order, stop at the first whose extracted message ends
with the delimiter; `none` corresponds to the `for`-`else` warning
"No hidden message found." -/
def bruteGo (img : Img) (delim : List Nat) (pixels : List Nat) :
    List (List (Nat × Nat)) → Option (List Nat)
  | [] => none
  | c :: cs =>
    if delim <:+ bruteTry img delim pixels c then
      some (bruteTry img delim pixels c)
    else bruteGo img delim pixels cs

/-- Character codes of Python `string.printable`: codes 32..126 together
with the whitespace control codes 9..13. -/
def printable (c : Nat) : Prop :=
  (32 ≤ c ∧ c ≤ 126) ∨ (9 ≤ c ∧ c ≤ 13)

/-- The steps of a traversal touch pairwise distinct `(pixel, band)`
channels. -/
def pairsNodup (steps : List (Nat × Nat × Nat)) : Prop :=
  (steps.map fun s => (s.1, s.2.1)).Nodup

/-- Total number of bits a traversal can carry. -/
def sumL (steps : List (Nat × Nat × Nat)) : Nat :=
  (steps.map fun s => s.2.2).sum

/-- The bit stream a traversal reads from a buffer: concatenation of the
low `lsb` bits of every visited channel. -/
def readStream (img : Img) (steps : List (Nat × Nat × Nat)) : List Bool :=
  steps.flatMap fun s => readSlot s.2.2 (img s.1 s.2.1)

/-- An all-black test buffer. -/
def img0 : Img := fun _ _ => 0

/-- The delimiter occurs in the framed message `M ++ delim` only as the
terminal suffix: no proper prefix of the framed message already ends with
the delimiter. -/
def delimOnlyAtEnd (delim M : List Nat) : Prop :=
  ∀ k, k < (M ++ delim).length → ¬ delim <:+ (M ++ delim).take k

instance : DecidablePred printable := fun c => by
  unfold printable
  infer_instance

instance (delim M : List Nat) : Decidable (delimOnlyAtEnd delim M) := by
  unfold delimOnlyAtEnd
  infer_instance

end Sten

namespace Sten

theorem natToBits_length (w v : Nat) : (natToBits w v).length = w := by
  induction w generalizing v with
  | zero => rfl
  | succ w ih => simp [natToBits, ih]

theorem bitsToNat_aux (s : List Bool) (i : Nat) :
    s.foldl (fun a b => 2 * a + cond b 1 0) i =
      i * 2 ^ s.length + bitsToNat s := by
  induction s generalizing i with
  | nil => simp [bitsToNat]
  | cons b t ih =>
    simp only [List.foldl_cons, List.length_cons, bitsToNat]
    rw [ih, ih (2 * 0 + cond b 1 0)]
    simp only [pow_succ]
    ring

theorem bitsToNat_append (a c : List Bool) :
    bitsToNat (a ++ c) = bitsToNat a * 2 ^ c.length + bitsToNat c := by
  unfold bitsToNat
  rw [List.foldl_append]
  exact bitsToNat_aux c _

theorem bitsToNat_lt (s : List Bool) : bitsToNat s < 2 ^ s.length := by
  induction s with
  | nil => simp [bitsToNat]
  | cons b t ih =>
    have h := bitsToNat_append [b] t
    have hb : bitsToNat [b] = cond b 1 0 := by cases b <;> rfl
    rw [List.singleton_append, hb] at h
    rw [h, List.length_cons, pow_succ]
    cases b <;> simp <;> omega

theorem bitsToNat_natToBits (w v : Nat) :
    bitsToNat (natToBits w v) = v % 2 ^ w := by
  induction w generalizing v with
  | zero => simp [natToBits, bitsToNat, Nat.mod_one]
  | succ w ih =>
    rw [natToBits, bitsToNat_append, ih]
    have h1 : bitsToNat [decide (v % 2 = 1)] = v % 2 := by
      rcases Nat.mod_two_eq_zero_or_one v with h | h <;> simp [h, bitsToNat]
    rw [h1, pow_succ, mul_comm (2 ^ w) 2, Nat.mod_mul]
    simp
    ring

theorem natToBits_bitsToNat (s : List Bool) :
    natToBits s.length (bitsToNat s) = s := by
  induction s using List.reverseRecOn with
  | nil => rfl
  | append_singleton t b ih =>
    rw [List.length_append, List.length_singleton, natToBits]
    have hb : bitsToNat (t ++ [b]) = 2 * bitsToNat t + cond b 1 0 := by
      rw [bitsToNat_append]
      have : bitsToNat [b] = cond b 1 0 := by cases b <;> rfl
      rw [this, List.length_singleton]
      ring
    have h2 : (2 * bitsToNat t + cond b 1 0) / 2 = bitsToNat t := by
      cases b <;> simp <;> omega
    have h3 : decide ((2 * bitsToNat t + cond b 1 0) % 2 = 1) = b := by
      cases b <;> simp <;> omega
    rw [hb, h2, h3, ih]

theorem addMul_div (a b k : Nat) (hb : b < 2 ^ k) :
    (a * 2 ^ k + b) / 2 ^ k = a := by
  rw [mul_comm, Nat.mul_add_div (Nat.pos_pow_of_pos k (by norm_num)),
    Nat.div_eq_of_lt hb, Nat.add_zero]

theorem addMul_mod (a b k : Nat) (hb : b < 2 ^ k) :
    (a * 2 ^ k + b) % 2 ^ k = b := by
  rw [mul_comm, Nat.mul_add_mod, Nat.mod_eq_of_lt hb]

theorem bitsToNat_take_drop (s : List Bool) (n : Nat) (hn : n ≤ s.length) :
    bitsToNat s =
      bitsToNat (s.take n) * 2 ^ (s.length - n) + bitsToNat (s.drop n) := by
  conv_lhs => rw [← List.take_append_drop n s]
  rw [bitsToNat_append, List.length_drop]

end Sten

namespace Sten

theorem two_pow_B : 2 ^ B = 256 := by norm_num [B]

theorem packBits_length (v l : Nat) (chunk : List Bool) (hl : l ≤ B)
    (hc : chunk.length ≤ l) :
    (packBits (natToBits B v) l chunk).length = B := by
  simp [packBits, natToBits_length]
  omega

theorem packVal_lt (v l : Nat) (chunk : List Bool) (hl : l ≤ B)
    (hc : chunk.length ≤ l) : packVal v l chunk < 256 := by
  have h := bitsToNat_lt (packBits (natToBits B v) l chunk)
  rw [packBits_length v l chunk hl hc, two_pow_B] at h
  exact h

theorem natToBits_packVal (v l : Nat) (chunk : List Bool) (hl : l ≤ B)
    (hc : chunk.length ≤ l) :
    natToBits B (packVal v l chunk) = packBits (natToBits B v) l chunk := by
  have h := natToBits_bitsToNat (packBits (natToBits B v) l chunk)
  rw [packBits_length v l chunk hl hc] at h
  exact h

theorem readSlot_length (l v : Nat) (hl1 : 1 ≤ l) (hl : l ≤ B) :
    (readSlot l v).length = l := by
  simp only [readSlot]
  rw [if_neg (show ¬ l = 0 by omega)]
  simp [natToBits_length]
  omega

theorem readSlot_packVal (v l : Nat) (chunk : List Bool) (hl1 : 1 ≤ l)
    (hl : l ≤ B) (hc : chunk.length ≤ l) :
    readSlot l (packVal v l chunk) =
      chunk ++ (natToBits B v).drop (B - l + chunk.length) := by
  have hA : ((natToBits B v).take (B - l)).length = B - l := by
    simp [natToBits_length]
  simp only [readSlot]
  rw [if_neg (show ¬ l = 0 by omega), natToBits_packVal v l chunk hl hc,
    packBits_length v l chunk hl hc, packBits, List.append_assoc,
    List.drop_left' hA]

theorem bitsToNat_natToBits_of_lt (v : Nat) (hv : v < 256) :
    bitsToNat (natToBits B v) = v := by
  rw [bitsToNat_natToBits, two_pow_B, Nat.mod_eq_of_lt hv]

theorem packVal_decomp (v l : Nat) (chunk : List Bool) (hv : v < 256)
    (hl : l ≤ B) (hc : chunk.length ≤ l) :
    packVal v l chunk / 2 ^ l = v / 2 ^ l ∧
    packVal v l chunk % 2 ^ (l - chunk.length) = v % 2 ^ (l - chunk.length) ∧
    packVal v l chunk / 2 ^ (l - chunk.length) % 2 ^ chunk.length =
      bitsToNat chunk := by
  have hlenval : (natToBits B v).length = B := natToBits_length B v
  have hlenA : ((natToBits B v).take (B - l)).length = B - l := by
    simp [hlenval]
  have hlenrest : ((natToBits B v).drop (B - l)).length = l := by
    simp [hlenval]; omega
  have hlenD :
      (((natToBits B v).drop (B - l)).drop chunk.length).length =
        l - chunk.length := by
    simp [hlenval]; omega
  have hlenmid :
      (((natToBits B v).drop (B - l)).take chunk.length).length =
        chunk.length := by
    simp [hlenval]; omega
  have hdropdrop :
      (natToBits B v).drop (B - l + chunk.length) =
        ((natToBits B v).drop (B - l)).drop chunk.length := by
    rw [List.drop_drop]
  have hCD :
      (chunk ++ ((natToBits B v).drop (B - l)).drop chunk.length).length =
        l := by
    simp [hlenD]; omega
  -- value of the packed byte, grouped at the l-bit boundary
  have hP1 : packVal v l chunk =
      bitsToNat ((natToBits B v).take (B - l)) * 2 ^ l +
        bitsToNat (chunk ++ ((natToBits B v).drop (B - l)).drop chunk.length)
      := by
    rw [packVal, packBits, hdropdrop, List.append_assoc, bitsToNat_append,
      hCD]
  -- value of the original byte, grouped at the l-bit boundary
  have hV1 : v =
      bitsToNat ((natToBits B v).take (B - l)) * 2 ^ l +
        bitsToNat ((natToBits B v).drop (B - l)) := by
    have h := bitsToNat_take_drop (natToBits B v) (B - l) (by omega)
    rw [hlenval, bitsToNat_natToBits_of_lt v hv,
      (show B - (B - l) = l by omega)] at h
    exact h
  have hpow : (2 : Nat) ^ l = 2 ^ chunk.length * 2 ^ (l - chunk.length) := by
    rw [← pow_add]
    congr 1
    omega
  -- value of the packed byte, grouped at the (l - r)-bit boundary
  have hP2 : packVal v l chunk =
      (bitsToNat ((natToBits B v).take (B - l)) * 2 ^ chunk.length +
          bitsToNat chunk) * 2 ^ (l - chunk.length) +
        bitsToNat (((natToBits B v).drop (B - l)).drop chunk.length) := by
    rw [hP1, bitsToNat_append, hlenD, hpow]
    ring
  -- value of the original byte, grouped at the (l - r)-bit boundary
  have hV2 : v =
      (bitsToNat ((natToBits B v).take (B - l)) * 2 ^ chunk.length +
          bitsToNat (((natToBits B v).drop (B - l)).take chunk.length)) *
          2 ^ (l - chunk.length) +
        bitsToNat (((natToBits B v).drop (B - l)).drop chunk.length) := by
    have h := bitsToNat_take_drop ((natToBits B v).drop (B - l)) chunk.length
      (by omega)
    rw [hlenrest] at h
    conv_lhs => rw [hV1]
    rw [h, hpow]
    ring
  have hCDlt :
      bitsToNat (chunk ++ ((natToBits B v).drop (B - l)).drop chunk.length) <
        2 ^ l := by
    have h := bitsToNat_lt
      (chunk ++ ((natToBits B v).drop (B - l)).drop chunk.length)
    rwa [hCD] at h
  have hrestlt : bitsToNat ((natToBits B v).drop (B - l)) < 2 ^ l := by
    have h := bitsToNat_lt ((natToBits B v).drop (B - l))
    rwa [hlenrest] at h
  have hDlt :
      bitsToNat (((natToBits B v).drop (B - l)).drop chunk.length) <
        2 ^ (l - chunk.length) := by
    have h := bitsToNat_lt (((natToBits B v).drop (B - l)).drop chunk.length)
    rwa [hlenD] at h
  have hClt : bitsToNat chunk < 2 ^ chunk.length := bitsToNat_lt chunk
  refine ⟨?_, ?_, ?_⟩
  · rw [hP1, addMul_div _ _ _ hCDlt]
    conv_rhs => rw [hV1]
    rw [addMul_div _ _ _ hrestlt]
  · rw [hP2, addMul_mod _ _ _ hDlt]
    conv_rhs => rw [hV2]
    rw [addMul_mod _ _ _ hDlt]
  · rw [hP2, addMul_div _ _ _ hDlt, addMul_mod _ _ _ hClt]

end Sten

namespace Sten

theorem embedGo_no_bits (img : Img) (steps : List (Nat × Nat × Nat)) :
    embedGo img [] steps = img := by
  cases steps with
  | nil => rfl
  | cons s rest =>
    obtain ⟨p, b, l⟩ := s
    simp [embedGo]

theorem embedGo_untouched (steps : List (Nat × Nat × Nat)) :
    ∀ (img : Img) (bits : List Bool) (p b : Nat),
      (∀ s ∈ steps, ¬(s.1 = p ∧ s.2.1 = b)) →
      embedGo img bits steps p b = img p b := by
  induction steps with
  | nil => intro img bits p b _; rfl
  | cons s rest ih =>
    intro img bits p b h
    obtain ⟨q, c, l⟩ := s
    by_cases hbe : bits.isEmpty = true
    · simp [embedGo, hbe]
    · simp only [embedGo]
      rw [if_neg hbe,
        ih _ _ p b (fun s hs => h s (List.mem_cons_of_mem _ hs))]
      have hq := h (q, c, l) (List.mem_cons_self _ _)
      rw [writePix, if_neg]
      intro hcontra
      exact hq ⟨hcontra.1.symm, hcontra.2.symm⟩

theorem embedGo_wf (steps : List (Nat × Nat × Nat)) :
    ∀ (img : Img) (bits : List Bool),
      WellFormed img → (∀ s ∈ steps, s.2.2 ≤ B) →
      WellFormed (embedGo img bits steps) := by
  induction steps with
  | nil => intro img bits himg _; exact himg
  | cons s rest ih =>
    intro img bits himg h
    obtain ⟨q, c, l⟩ := s
    by_cases hbe : bits.isEmpty = true
    · simpa [embedGo, hbe] using himg
    · simp only [embedGo]
      rw [if_neg hbe]
      refine ih _ _ ?_ (fun s hs => h s (List.mem_cons_of_mem _ hs))
      intro p' b'
      rw [writePix]
      split
      · exact packVal_lt _ _ _ (h (q, c, l) (List.mem_cons_self _ _))
          (by simp)
      · exact himg p' b'

theorem readStream_nil (img : Img) : readStream img [] = [] := rfl

theorem readStream_cons (img : Img) (s : Nat × Nat × Nat)
    (rest : List (Nat × Nat × Nat)) :
    readStream img (s :: rest) =
      readSlot s.2.2 (img s.1 s.2.1) ++ readStream img rest := by
  simp [readStream]

theorem sumL_nil : sumL [] = 0 := rfl

theorem sumL_cons (s : Nat × Nat × Nat) (rest : List (Nat × Nat × Nat)) :
    sumL (s :: rest) = s.2.2 + sumL rest := by
  simp [sumL]

theorem embedGo_readStream_fits (steps : List (Nat × Nat × Nat)) :
    ∀ (img : Img) (bits : List Bool),
      WellFormed img → pairsNodup steps →
      (∀ s ∈ steps, 1 ≤ s.2.2 ∧ s.2.2 ≤ B) →
      bits.length ≤ sumL steps →
      ∃ junk, readStream (embedGo img bits steps) steps = bits ++ junk := by
  induction steps with
  | nil =>
    intro img bits _ _ _ hlen
    have hb : bits = [] := by
      refine List.eq_nil_of_length_eq_zero ?_
      simpa [sumL_nil] using hlen
    exact ⟨[], by simp [hb, readStream_nil]⟩
  | cons s rest ih =>
    obtain ⟨q, c, l⟩ := s
    intro img bits himg hnd hbound hlen
    by_cases hbe : bits.isEmpty = true
    · have hb : bits = [] := List.isEmpty_iff.mp hbe
      refine ⟨readStream img ((q, c, l) :: rest), ?_⟩
      rw [hb, embedGo_no_bits]
      simp
    · have hl1 : 1 ≤ l := (hbound (q, c, l) (List.mem_cons_self _ _)).1
      have hl8 : l ≤ B := (hbound (q, c, l) (List.mem_cons_self _ _)).2
      have hchunk : (bits.take l).length ≤ l := by simp
      have hstep : embedGo img bits ((q, c, l) :: rest) =
          embedGo (writePix img q c (packVal (img q c) l (bits.take l)))
            (bits.drop l) rest := by
        simp only [embedGo]
        rw [if_neg hbe]
      have himg'wf :
          WellFormed (writePix img q c (packVal (img q c) l (bits.take l)))
          := by
        intro p' b'
        rw [writePix]
        split
        · exact packVal_lt _ _ _ hl8 hchunk
        · exact himg p' b'
      have hnd' : pairsNodup rest := by
        have := hnd
        rw [pairsNodup, List.map_cons, List.nodup_cons] at this
        exact this.2
      have hnotin : ∀ s ∈ rest, ¬(s.1 = q ∧ s.2.1 = c) := by
        intro s hs hcontra
        have hmem := hnd
        rw [pairsNodup, List.map_cons, List.nodup_cons] at hmem
        exact hmem.1 (by
          refine List.mem_map.mpr ⟨s, hs, ?_⟩
          simp [hcontra.1, hcontra.2])
      have hfinal_qc :
          embedGo (writePix img q c (packVal (img q c) l (bits.take l)))
            (bits.drop l) rest q c =
            packVal (img q c) l (bits.take l) := by
        rw [embedGo_untouched rest _ _ q c hnotin, writePix, if_pos ⟨rfl, rfl⟩]
      have hlen2 : bits.length ≤ l + sumL rest := by
        simpa [sumL_cons] using hlen
      have hlen' : (bits.drop l).length ≤ sumL rest := by
        simp only [List.length_drop]
        omega
      obtain ⟨junk, hjunk⟩ := ih
        (writePix img q c (packVal (img q c) l (bits.take l))) (bits.drop l)
        himg'wf hnd' (fun s hs => hbound s (List.mem_cons_of_mem _ hs)) hlen'
      rw [hstep, readStream_cons]
      simp only at hfinal_qc ⊢
      rw [hfinal_qc, readSlot_packVal _ _ _ hl1 hl8 hchunk, hjunk]
      by_cases hfull : l ≤ bits.length
      · have htl : (bits.take l).length = l := by simp; omega
        have hJ : (natToBits B (img q c)).drop (B - l + (bits.take l).length)
            = [] := by
          rw [htl]
          exact List.drop_eq_nil_of_le (by rw [natToBits_length]; omega)
        refine ⟨junk, ?_⟩
        rw [hJ, List.append_nil, ← List.append_assoc, List.take_append_drop]
      · have htake : bits.take l = bits := List.take_of_length_le (by omega)
        have hdrop : bits.drop l = [] := List.drop_eq_nil_of_le (by omega)
        refine ⟨(natToBits B (img q c)).drop (B - l + (bits.take l).length)
          ++ ([] ++ junk), ?_⟩
        rw [hdrop] at hjunk ⊢
        rw [htake, List.append_assoc]

theorem embedGo_readStream_overflow (steps : List (Nat × Nat × Nat)) :
    ∀ (img : Img) (bits : List Bool),
      WellFormed img → pairsNodup steps →
      (∀ s ∈ steps, 1 ≤ s.2.2 ∧ s.2.2 ≤ B) →
      sumL steps ≤ bits.length →
      readStream (embedGo img bits steps) steps = bits.take (sumL steps) := by
  induction steps with
  | nil =>
    intro img bits _ _ _ _
    simp [readStream_nil, sumL_nil]
  | cons s rest ih =>
    obtain ⟨q, c, l⟩ := s
    intro img bits himg hnd hbound hlen
    have hl1 : 1 ≤ l := (hbound (q, c, l) (List.mem_cons_self _ _)).1
    have hl8 : l ≤ B := (hbound (q, c, l) (List.mem_cons_self _ _)).2
    have hlen2 : l + sumL rest ≤ bits.length := by
      simpa [sumL_cons] using hlen
    have hfull : l ≤ bits.length := by omega
    have hbe : ¬ bits.isEmpty = true := by
      rw [List.isEmpty_iff]
      intro hb
      rw [hb] at hfull
      simp at hfull
      omega
    have hchunk : (bits.take l).length ≤ l := by simp
    have hstep : embedGo img bits ((q, c, l) :: rest) =
        embedGo (writePix img q c (packVal (img q c) l (bits.take l)))
          (bits.drop l) rest := by
      simp only [embedGo]
      rw [if_neg hbe]
    have himg'wf :
        WellFormed (writePix img q c (packVal (img q c) l (bits.take l)))
        := by
      intro p' b'
      rw [writePix]
      split
      · exact packVal_lt _ _ _ hl8 hchunk
      · exact himg p' b'
    have hnd' : pairsNodup rest := by
      have := hnd
      rw [pairsNodup, List.map_cons, List.nodup_cons] at this
      exact this.2
    have hnotin : ∀ s ∈ rest, ¬(s.1 = q ∧ s.2.1 = c) := by
      intro s hs hcontra
      have hmem := hnd
      rw [pairsNodup, List.map_cons, List.nodup_cons] at hmem
      exact hmem.1 (by
        refine List.mem_map.mpr ⟨s, hs, ?_⟩
        simp [hcontra.1, hcontra.2])
    have hfinal_qc :
        embedGo (writePix img q c (packVal (img q c) l (bits.take l)))
          (bits.drop l) rest q c =
          packVal (img q c) l (bits.take l) := by
      rw [embedGo_untouched rest _ _ q c hnotin, writePix, if_pos ⟨rfl, rfl⟩]
    have hlen' : sumL rest ≤ (bits.drop l).length := by
      simp only [List.length_drop]
      omega
    have hrec := ih
      (writePix img q c (packVal (img q c) l (bits.take l))) (bits.drop l)
      himg'wf hnd' (fun s hs => hbound s (List.mem_cons_of_mem _ hs)) hlen'
    rw [hstep, readStream_cons]
    simp only at hfinal_qc ⊢
    rw [hfinal_qc, readSlot_packVal _ _ _ hl1 hl8 hchunk, hrec]
    have htl : (bits.take l).length = l := by simp; omega
    have hJ : (natToBits B (img q c)).drop (B - l + (bits.take l).length)
        = [] := by
      rw [htl]
      exact List.drop_eq_nil_of_le (by rw [natToBits_length]; omega)
    have hsum : sumL ((q, c, l) :: rest) = l + sumL rest := by
      simp [sumL_cons]
    rw [hJ, List.append_nil, hsum, List.take_add]

end Sten

namespace Sten

theorem frameBits_nil : frameBits [] = [] := rfl

theorem frameBits_cons (c : Nat) (m : List Nat) :
    frameBits (c :: m) = natToBits B c ++ frameBits m := by
  simp [frameBits]

theorem frameBits_length (m : List Nat) :
    (frameBits m).length = B * m.length := by
  induction m with
  | nil => simp [frameBits_nil]
  | cons c m ih =>
    rw [frameBits_cons, List.length_append, natToBits_length, ih,
      List.length_cons]
    ring

theorem extractGo_stop (img : Img) (delim : List Nat) (acc : List Bool)
    (msg : List Nat) (steps : List (Nat × Nat × Nat))
    (h : delim <:+ msg) : extractGo img delim acc msg steps = msg := by
  cases steps with
  | nil => rfl
  | cons s rest =>
    obtain ⟨p, b, l⟩ := s
    simp only [extractGo]
    rw [if_pos h]

theorem extractGo_correct (img : Img) (delim : List Nat) (full : List Nat)
    (hend : delim <:+ full)
    (hne : ∀ k, k < full.length → ¬ delim <:+ full.take k)
    (hcodes : ∀ c ∈ full, c < 256) :
    ∀ (steps : List (Nat × Nat × Nat)) (acc : List Bool) (msg rem : List Nat),
      full = msg ++ rem →
      acc.length < B →
      (∀ s ∈ steps, 1 ≤ s.2.2 ∧ s.2.2 ≤ B) →
      (∃ junk, acc ++ readStream img steps = frameBits rem ++ junk) →
      extractGo img delim acc msg steps = full := by
  intro steps
  induction steps with
  | nil =>
    intro acc msg rem hsplit hacc _ hstream
    obtain ⟨junk, hj⟩ := hstream
    rw [readStream_nil, List.append_nil] at hj
    have hlenj := congrArg List.length hj
    rw [List.length_append, frameBits_length] at hlenj
    have hB8 : B = 8 := rfl
    have hrem : rem = [] := by
      cases rem with
      | nil => rfl
      | cons r t =>
        exfalso
        rw [List.length_cons, hB8] at hlenj
        rw [hB8] at hacc
        omega
    rw [hrem, List.append_nil] at hsplit
    exact hsplit.symm
  | cons s rest ih =>
    obtain ⟨p, b, l⟩ := s
    intro acc msg rem hsplit hacc hbound hstream
    by_cases hsuf : delim <:+ msg
    · have hrem : rem = [] := by
        by_contra hrem
        have hlt : msg.length < full.length := by
          rw [hsplit, List.length_append]
          have : 0 < rem.length := List.length_pos.mpr hrem
          omega
        have htake : full.take msg.length = msg := by
          rw [hsplit, List.take_left]
        refine hne msg.length hlt ?_
        rw [htake]
        exact hsuf
      rw [extractGo_stop img delim acc msg _ hsuf]
      rw [hrem, List.append_nil] at hsplit
      exact hsplit.symm
    · have hremne : rem ≠ [] := by
        intro hrem
        rw [hrem, List.append_nil] at hsplit
        exact hsuf (hsplit ▸ hend)
      obtain ⟨r0, rem', hrem⟩ : ∃ r0 rem', rem = r0 :: rem' := by
        cases rem with
        | nil => exact absurd rfl hremne
        | cons a t => exact ⟨a, t, rfl⟩
      subst hrem
      have hl1 : 1 ≤ l := (hbound (p, b, l) (List.mem_cons_self _ _)).1
      have hl8 : l ≤ B := (hbound (p, b, l) (List.mem_cons_self _ _)).2
      have hslotlen : (readSlot l (img p b)).length = l :=
        readSlot_length l _ hl1 hl8
      obtain ⟨junk, hj⟩ := hstream
      rw [readStream_cons] at hj
      simp only at hj
      rw [← List.append_assoc acc] at hj
      simp only [extractGo]
      rw [if_neg hsuf]
      by_cases hfull8 : B ≤ (acc ++ readSlot l (img p b)).length
      · rw [if_pos hfull8]
        rw [frameBits_cons, List.append_assoc (natToBits B r0)] at hj
        have hnatlen : (natToBits B r0).length = B := natToBits_length B r0
        have hRtake : (natToBits B r0 ++ (frameBits rem' ++ junk)).take B =
            natToBits B r0 := by
          rw [List.take_append_of_le_length hnatlen.ge,
            List.take_of_length_le hnatlen.le]
        have htake8 : (acc ++ readSlot l (img p b)).take B = natToBits B r0
            := by
          have h1 := congrArg (List.take B) hj
          rw [List.take_append_of_le_length hfull8] at h1
          rw [h1, hRtake]
        have hRdrop : (natToBits B r0 ++ (frameBits rem' ++ junk)).drop B =
            frameBits rem' ++ junk := List.drop_left' hnatlen
        have hdrop8 :
            (acc ++ readSlot l (img p b)).drop B ++ readStream img rest =
              frameBits rem' ++ junk := by
          have h1 := congrArg (List.drop B) hj
          rw [List.drop_append_of_le_length hfull8] at h1
          rw [h1, hRdrop]
        have hr0 : r0 < 256 := by
          refine hcodes r0 ?_
          rw [hsplit]
          exact List.mem_append_right _ (List.mem_cons_self _ _)
        have hchar :
            bitsToNat ((acc ++ readSlot l (img p b)).take B) = r0 := by
          rw [htake8, bitsToNat_natToBits_of_lt r0 hr0]
        rw [hchar]
        refine ih _ (msg ++ [r0]) rem' ?_ ?_
          (fun s hs => hbound s (List.mem_cons_of_mem _ hs)) ⟨junk, hdrop8⟩
        · rw [hsplit, List.append_assoc]
          rfl
        · rw [List.length_drop, List.length_append, hslotlen]
          omega
      · rw [if_neg hfull8]
        refine ih _ msg (r0 :: rem') hsplit ?_
          (fun s hs => hbound s (List.mem_cons_of_mem _ hs)) ⟨junk, hj⟩
        omega

theorem occurrence_snoc (t l : List Nat) (a : Nat) (h : t <:+: l ++ [a]) :
    t <:+: l ∨ t <:+ l ++ [a] := by
  obtain ⟨s, u, hsu⟩ := h
  rcases List.eq_nil_or_concat u with hu | ⟨u2, a2, hu⟩
  · right
    rw [hu, List.append_nil] at hsu
    exact ⟨s, hsu⟩
  · left
    rw [hu, List.concat_eq_append, ← List.append_assoc] at hsu
    have hinj := List.append_inj' hsu (by rfl)
    exact ⟨s, u2, hinj.1⟩

theorem extractGo_occurrence_suffix (img : Img) (delim : List Nat) :
    ∀ (steps : List (Nat × Nat × Nat)) (acc : List Bool) (msg : List Nat),
      (delim <:+: msg → delim <:+ msg) →
      delim <:+: extractGo img delim acc msg steps →
      delim <:+ extractGo img delim acc msg steps := by
  intro steps
  induction steps with
  | nil => intro acc msg hinv; exact hinv
  | cons s rest ih =>
    obtain ⟨p, b, l⟩ := s
    intro acc msg hinv
    by_cases hsuf : delim <:+ msg
    · simp only [extractGo]
      rw [if_pos hsuf]
      intro _
      exact hsuf
    · simp only [extractGo]
      rw [if_neg hsuf]
      by_cases h8 : B ≤ (acc ++ readSlot l (img p b)).length
      · rw [if_pos h8]
        refine ih _ _ ?_
        intro hin
        rcases occurrence_snoc _ _ _ hin with hin2 | hsuf2
        · exact absurd (hinv hin2) hsuf
        · exact hsuf2
      · rw [if_neg h8]
        exact ih _ _ hinv

theorem extractGo_occurrence_suffix_start (img : Img) (delim : List Nat)
    (steps : List (Nat × Nat × Nat))
    (h : delim <:+: extractGo img delim [] [] steps) :
    delim <:+ extractGo img delim [] [] steps := by
  refine extractGo_occurrence_suffix img delim steps [] [] ?_ h
  intro hin
  obtain ⟨s, u, hsu⟩ := hin
  have hnil : delim = [] := ((List.append_eq_nil.mp
    ((List.append_eq_nil.mp hsu).1)).2)
  subst hnil
  exact List.nil_suffix

end Sten

namespace Sten

theorem stepsOf_bounds (pixels : List Nat) (alloc : List (Nat × Nat))
    (hl : ∀ bl ∈ alloc, 1 ≤ bl.2 ∧ bl.2 ≤ B) :
    ∀ s ∈ stepsOf pixels alloc, 1 ≤ s.2.2 ∧ s.2.2 ≤ B := by
  intro s hs
  rw [stepsOf, List.mem_flatMap] at hs
  obtain ⟨p, _, hmem⟩ := hs
  rw [List.mem_map] at hmem
  obtain ⟨bl, hbl, hrfl⟩ := hmem
  rw [← hrfl]
  simpa using hl bl hbl

theorem stepsOf_pairsNodup (pixels : List Nat) (alloc : List (Nat × Nat))
    (hp : pixels.Nodup) (ha : (alloc.map Prod.fst).Nodup) :
    pairsNodup (stepsOf pixels alloc) := by
  rw [pairsNodup, stepsOf, List.map_flatMap]
  rw [List.nodup_flatMap]
  constructor
  · intro p _
    have hmm : ((alloc.map fun bl => (p, bl.1, bl.2)).map
        fun s : Nat × Nat × Nat => (s.1, s.2.1)) =
        (alloc.map Prod.fst).map fun x => (p, x) := by
      simp [List.map_map, Function.comp]
    rw [hmm]
    refine List.Nodup.map ?_ ha
    intro x y hxy
    simpa using hxy
  · refine List.Pairwise.imp ?_ hp
    intro x y hxy
    intro a ha1 ha2
    rw [List.mem_map] at ha1 ha2
    obtain ⟨s1, hs1, h1⟩ := ha1
    obtain ⟨s2, hs2, h2⟩ := ha2
    rw [List.mem_map] at hs1 hs2
    obtain ⟨bl1, _, hb1⟩ := hs1
    obtain ⟨bl2, _, hb2⟩ := hs2
    apply hxy
    rw [← hb1] at h1
    rw [← hb2] at h2
    have := h1.trans h2.symm
    simpa using congrArg Prod.fst this

theorem sumL_stepsOf (pixels : List Nat) (alloc : List (Nat × Nat)) :
    sumL (stepsOf pixels alloc) =
      pixels.length * (alloc.map Prod.snd).sum := by
  induction pixels with
  | nil => simp [stepsOf, sumL]
  | cons p ps ih =>
    have hcons : stepsOf (p :: ps) alloc =
        (alloc.map fun bl => (p, bl.1, bl.2)) ++ stepsOf ps alloc := by
      rw [stepsOf, List.flatMap_cons, stepsOf]
    have hhead : (((alloc.map fun bl => (p, bl.1, bl.2)).map
        fun s : Nat × Nat × Nat => s.2.2)).sum = (alloc.map Prod.snd).sum
        := by
      simp only [List.map_map, Function.comp]
      rfl
    rw [hcons, sumL, List.map_append, List.sum_append]
    rw [sumL] at ih
    rw [hhead, ih, List.length_cons]
    ring

theorem roundtrip (img : Img) (alloc : List (Nat × Nat))
    (pixels : List Nat) (delim M : List Nat)
    (himg : WellFormed img)
    (hpix : pixels.Nodup)
    (halloc : (alloc.map Prod.fst).Nodup)
    (hl : ∀ bl ∈ alloc, 1 ≤ bl.2 ∧ bl.2 ≤ B)
    (hM : ∀ c ∈ M, c < 256)
    (hd : ∀ c ∈ delim, c < 256)
    (hcap : (M.length : Int) ≤ chLimit pixels.length alloc delim)
    (hne : delimOnlyAtEnd delim M) :
    decode (encode img alloc pixels delim M) alloc pixels delim = some M
    := by
  have hbound := stepsOf_bounds pixels alloc hl
  have hnd := stepsOf_pairsNodup pixels alloc hpix halloc
  have hB8 : B = 8 := rfl
  have hQ : M.length + delim.length ≤
      pixels.length * (alloc.map Prod.snd).sum / B := by
    rw [chLimit] at hcap
    omega
  have hfits : (frameBits (M ++ delim)).length ≤
      sumL (stepsOf pixels alloc) := by
    rw [frameBits_length, List.length_append, sumL_stepsOf]
    calc B * (M.length + delim.length)
        ≤ B * (pixels.length * (alloc.map Prod.snd).sum / B) :=
          Nat.mul_le_mul_left B hQ
      _ ≤ pixels.length * (alloc.map Prod.snd).sum := by
          rw [mul_comm]
          exact Nat.div_mul_le_self _ B
  obtain ⟨junk, hstream⟩ := embedGo_readStream_fits (stepsOf pixels alloc)
    img (frameBits (M ++ delim)) himg hnd hbound hfits
  have hfullcodes : ∀ c ∈ M ++ delim, c < 256 := by
    intro c hc
    rcases List.mem_append.mp hc with h | h
    · exact hM c h
    · exact hd c h
  have hend : delim <:+ M ++ delim := List.suffix_append M delim
  have hextract := extractGo_correct
    (embedGo img (frameBits (M ++ delim)) (stepsOf pixels alloc)) delim
    (M ++ delim) hend hne hfullcodes (stepsOf pixels alloc) [] []
    (M ++ delim) (by simp) (by rw [hB8]; simp) hbound
    ⟨junk, by simpa using hstream⟩
  have hgoal : decode
      (embedGo img (frameBits (M ++ delim)) (stepsOf pixels alloc))
      alloc pixels delim = some M := by
    simp only [decode]
    rw [hextract]
    have hinf : delim <:+: M ++ delim := ⟨M, [], by simp⟩
    rw [if_pos hinf, removeSuffix, if_pos hend]
    have hlen : (M ++ delim).length - delim.length = M.length := by
      rw [List.length_append]
      omega
    rw [hlen, List.take_left]
  exact hgoal

end Sten

namespace Sten

theorem pyProduct_mem (n : Nat) :
    ∀ (k : Nat) (t : List Nat),
      t ∈ pyProduct n k ↔ t.length = k ∧ ∀ x ∈ t, x < n := by
  intro k
  induction k with
  | zero =>
    intro t
    constructor
    · intro ht
      have hnil : t = [] := by simpa [pyProduct] using ht
      subst hnil
      exact ⟨rfl, by intro x hx; cases hx⟩
    · intro hc
      have hnil : t = [] := List.eq_nil_of_length_eq_zero hc.1
      subst hnil
      simp [pyProduct]
  | succ k ih =>
    intro t
    constructor
    · intro ht
      rw [pyProduct, List.mem_flatMap] at ht
      obtain ⟨a, hain, hmem⟩ := ht
      rw [List.mem_map] at hmem
      obtain ⟨t2, ht2, hrfl⟩ := hmem
      rw [List.mem_range] at hain
      obtain ⟨hlen2, hx2⟩ := (ih t2).mp ht2
      subst hrfl
      refine ⟨by simp [hlen2], ?_⟩
      intro x hx
      rcases List.mem_cons.mp hx with h | h
      · rw [h]; exact hain
      · exact hx2 x h
    · intro hc
      obtain ⟨hlen, hx⟩ := hc
      cases t with
      | nil => simp at hlen
      | cons a t2 =>
        rw [pyProduct, List.mem_flatMap]
        refine ⟨a, List.mem_range.mpr (hx a (List.mem_cons_self _ _)), ?_⟩
        rw [List.mem_map]
        exact ⟨t2, (ih t2).mpr ⟨by simpa using hlen,
          fun x h => hx x (List.mem_cons_of_mem _ h)⟩, rfl⟩

theorem bruteGo_found (img : Img) (delim : List Nat) (pixels : List Nat) :
    ∀ (pre : List (List (Nat × Nat))) (c : List (Nat × Nat))
      (post : List (List (Nat × Nat))),
      (∀ c2 ∈ pre, ¬ delim <:+ bruteTry img delim pixels c2) →
      delim <:+ bruteTry img delim pixels c →
      bruteGo img delim pixels (pre ++ c :: post) =
        some (bruteTry img delim pixels c) := by
  intro pre
  induction pre with
  | nil =>
    intro c post _ hc
    rw [List.nil_append]
    simp only [bruteGo]
    rw [if_pos hc]
  | cons c0 pre ih =>
    intro c post hpre hc
    rw [List.cons_append]
    simp only [bruteGo]
    rw [if_neg (hpre c0 (List.mem_cons_self _ _))]
    exact ih c post (fun c2 h2 => hpre c2 (List.mem_cons_of_mem _ h2)) hc

theorem bruteGo_none (img : Img) (delim : List Nat) (pixels : List Nat) :
    ∀ cands : List (List (Nat × Nat)),
      (∀ c ∈ cands, ¬ delim <:+ bruteTry img delim pixels c) →
      bruteGo img delim pixels cands = none := by
  intro cands
  induction cands with
  | nil => intro _; rfl
  | cons c cs ih =>
    intro h
    simp only [bruteGo]
    rw [if_neg (h c (List.mem_cons_self _ _))]
    exact ih (fun c2 h2 => h c2 (List.mem_cons_of_mem _ h2))

end Sten

namespace Sten

theorem printable_lt (c : Nat) (h : printable c) : c < 256 := by
  unfold printable at h
  rcases h with h | h
  · omega
  · omega

theorem img0_wf : WellFormed img0 := by
  intro p b
  show (0 : Nat) < 256
  decide

set_option maxRecDepth 8192 in
/-- C1: the claim as frozen fails: with the one-character delimiter "#"
(code 35), the printable one-character message "#" satisfies the length
bound (capacity of a 16-pixel image with a 1-bit allocation on band 0 is
1), yet extraction after embedding returns the empty message, not "#". -/
theorem c1_counterexample :
    decode (encode img0 [(0, 1)] (List.range 16) [35] [35])
      [(0, 1)] (List.range 16) [35] ≠ some [35] := by
  decide

/-- C1 (amended): for every printable-ASCII message M within the computed
capacity, every duplicate-free pixel order, every allocation of 1..8 bits
per distinct band, and every 8-bit image, extraction after embedding the
framed M returns exactly M - provided the delimiter occurs in the framed
message M ++ DELIMITER only as its final suffix. -/
theorem c1_roundtrip_amended (img : Img) (alloc : List (Nat × Nat))
    (pixels : List Nat) (delim M : List Nat)
    (himg : WellFormed img)
    (hpix : pixels.Nodup)
    (halloc : (alloc.map Prod.fst).Nodup)
    (hl : ∀ bl ∈ alloc, 1 ≤ bl.2 ∧ bl.2 ≤ B)
    (hM : ∀ c ∈ M, printable c)
    (hd : ∀ c ∈ delim, c < 256)
    (hcap : (M.length : Int) ≤ chLimit pixels.length alloc delim)
    (hne : delimOnlyAtEnd delim M) :
    decode (encode img alloc pixels delim M) alloc pixels delim = some M :=
  roundtrip img alloc pixels delim M himg hpix halloc hl
    (fun c hc => printable_lt c (hM c hc)) hd hcap hne

/-- Witness for the amended C1 at a concrete instance: 16 pixels, band 0
with 1 LSB, delimiter "#", message "H". -/
theorem c1_witness :
    decode (encode img0 [(0, 1)] (List.range 16) [35] [72])
      [(0, 1)] (List.range 16) [35] = some [72] :=
  c1_roundtrip_amended img0 [(0, 1)] (List.range 16) [35] [72]
    img0_wf (List.nodup_range 16) (by decide) (by decide)
    (by decide) (by decide) (by decide) (by decide)

/-- C2: the character limit computed by `refresh` equals
floor((P * sum of allocated bits) / 8) minus the delimiter length. -/
theorem c2_capacity_formula (P : Nat) (alloc : List (Nat × Nat))
    (delim : List Nat) :
    chLimit P alloc delim =
      ((P * (alloc.map Prod.snd).sum : Nat) : Int) / 8 -
        (delim.length : Int) := by
  rw [chLimit]
  congr 1

/-- C3: the claim as frozen fails: at 100 pixels with a one-character
delimiter the image-open capacity line reports 100 * 3 - 1 = 299
characters, not floor((100 * 3) / 8) - 1 = 36. -/
theorem c3_counterexample :
    openCapacity 100 [35] ≠ ((100 * 3 / 8 : Nat) : Int) - 1 := by
  decide

/-- C3 (amended): the capacity reported at image-open time equals
P * number_of_bands - D with no division by the bit depth; this is the
section 4.1 formula evaluated with the full 8 bits on each of the 3
bands, not with the claimed 1-bit-per-band default. -/
theorem c3_open_capacity (P : Nat) (delim : List Nat) :
    openCapacity P delim = chLimit P [(0, 8), (1, 8), (2, 8)] delim := by
  rw [openCapacity, chLimit]
  have h : P * (([(0, 8), (1, 8), (2, 8)] : List (Nat × Nat)).map
      Prod.snd).sum / B = P * bandCount := by
    simp [B, bandCount]
    omega
  rw [h]

/-- C4: the claim as frozen fails: with 100 pixels, allocation {0: 1} and
delimiter "#" the computed capacity is (100 * 1) / 8 - 1 = 11 characters,
not 99. -/
theorem c4_counterexample : chLimit 100 [(0, 1)] [35] ≠ 99 := by
  decide

/-- C4 (amended): with 100 pixels, allocation {0: 1}, delimiter "#" and no
seed, the computed capacity is 11 characters, and embedding "HI" then
extracting with the same parameters returns "HI". -/
theorem c4_example_amended :
    chLimit 100 [(0, 1)] [35] = 11 ∧
    ∀ img : Img, WellFormed img →
      decode (encode img [(0, 1)] (List.range 100) [35] [72, 73])
        [(0, 1)] (List.range 100) [35] = some [72, 73] := by
  refine ⟨by decide, ?_⟩
  intro img himg
  exact roundtrip img [(0, 1)] (List.range 100) [35] [72, 73] himg
    (List.nodup_range 100) (by decide) (by decide) (by decide) (by decide)
    (by decide) (by decide)

/-- Witness for the amended C4 on the all-black 100-pixel buffer. -/
theorem c4_witness :
    decode (encode img0 [(0, 1)] (List.range 100) [35] [72, 73])
      [(0, 1)] (List.range 100) [35] = some [72, 73] :=
  c4_example_amended.2 img0 img0_wf

/-- C5: one embedding step with at least lsb bits left writes a value that
keeps the high (8 - lsb) bits and replaces the low lsb bits with the next
lsb message bits; once the bit string is exhausted the remaining traversal
leaves every channel unchanged. -/
theorem c5_embed_step :
    (∀ (img : Img) (p b l : Nat) (bits : List Bool)
        (rest : List (Nat × Nat × Nat)),
      img p b < 256 → 1 ≤ l → l ≤ B → l ≤ bits.length →
      (embedGo img bits ((p, b, l) :: rest) =
        embedGo (writePix img p b (packVal (img p b) l (bits.take l)))
          (bits.drop l) rest ∧
      packVal (img p b) l (bits.take l) / 2 ^ l = img p b / 2 ^ l ∧
      packVal (img p b) l (bits.take l) % 2 ^ l =
        bitsToNat (bits.take l))) ∧
    (∀ (img : Img) (steps : List (Nat × Nat × Nat)),
      embedGo img [] steps = img) := by
  constructor
  · intro img p b l bits rest hv hl1 hl8 hlen
    have hbe : ¬ bits.isEmpty = true := by
      rw [List.isEmpty_iff]
      intro h
      rw [h] at hlen
      simp at hlen
      omega
    have htl : (bits.take l).length = l := by
      simp
      omega
    refine ⟨by simp only [embedGo]; rw [if_neg hbe], ?_, ?_⟩
    · exact (packVal_decomp (img p b) l (bits.take l) hv hl8 htl.le).1
    · have h := (packVal_decomp (img p b) l (bits.take l) hv hl8 htl.le).2.2
      rw [htl, Nat.sub_self, pow_zero, Nat.div_one] at h
      exact h
  · exact embedGo_no_bits

/-- Witness for C5 at a concrete one-bit step on the all-black buffer. -/
theorem c5_witness :
    (embedGo img0 [true] [(0, 0, 1)] =
      embedGo (writePix img0 0 0 (packVal (img0 0 0) 1 ([true].take 1)))
        ([true].drop 1) [] ∧
    packVal (img0 0 0) 1 ([true].take 1) / 2 ^ 1 = img0 0 0 / 2 ^ 1 ∧
    packVal (img0 0 0) 1 ([true].take 1) % 2 ^ 1 =
      bitsToNat ([true].take 1)) :=
  c5_embed_step.1 img0 0 0 1 [true] [] (by decide) (by decide) (by decide)
    (by decide)

/-- C6: when the framed bit string is longer than the total capacity
(pixel count times allocated bits per pixel), embedding is still total: it
fills every traversal slot with the first capacity-many bits, silently
drops the rest, and still yields a well-formed 8-bit output image. -/
theorem c6_overflow_truncates (img : Img) (alloc : List (Nat × Nat))
    (pixels : List Nat) (delim msg : List Nat)
    (himg : WellFormed img) (hpix : pixels.Nodup)
    (halloc : (alloc.map Prod.fst).Nodup)
    (hl : ∀ bl ∈ alloc, 1 ≤ bl.2 ∧ bl.2 ≤ B)
    (hover : pixels.length * (alloc.map Prod.snd).sum <
      (frameBits (msg ++ delim)).length) :
    readStream (encode img alloc pixels delim msg) (stepsOf pixels alloc) =
      (frameBits (msg ++ delim)).take
        (pixels.length * (alloc.map Prod.snd).sum) ∧
    WellFormed (encode img alloc pixels delim msg) := by
  have hbound := stepsOf_bounds pixels alloc hl
  have hnd := stepsOf_pairsNodup pixels alloc hpix halloc
  have hsum := sumL_stepsOf pixels alloc
  constructor
  · rw [encode]
    have h := embedGo_readStream_overflow (stepsOf pixels alloc) img
      (frameBits (msg ++ delim)) himg hnd hbound (by omega)
    rw [h, hsum]
  · rw [encode]
    exact embedGo_wf _ img _ himg (fun s hs => (hbound s hs).2)

/-- Witness for C6: 2 pixels and a 1-bit allocation cannot hold the 8-bit
framed empty message; embedding still succeeds and truncates. -/
theorem c6_witness :
    readStream (encode img0 [(0, 1)] (List.range 2) [35] [])
        (stepsOf (List.range 2) [(0, 1)]) =
      (frameBits ([] ++ [35])).take
        ((List.range 2).length * ([(0, 1)].map Prod.snd).sum) ∧
    WellFormed (encode img0 [(0, 1)] (List.range 2) [35] []) :=
  c6_overflow_truncates img0 [(0, 1)] (List.range 2) [35] []
    img0_wf (List.nodup_range 2) (by decide) (by decide)
    (by decide)

/-- C7: the extraction loop halts as soon as the running message ends with
the delimiter; any delimiter occurrence in the loop output is a trailing
one; when that happens decode returns the message with the trailing
delimiter removed, and when the traversal is exhausted without a
delimiter occurrence decode returns the negative outcome `none` (the
"no hidden message found" warning), never an error. -/
theorem c7_delimiter_outcomes :
    (∀ (img : Img) (delim : List Nat) (acc : List Bool) (msg : List Nat)
        (steps : List (Nat × Nat × Nat)),
      delim <:+ msg → extractGo img delim acc msg steps = msg) ∧
    (∀ (img : Img) (alloc : List (Nat × Nat)) (pixels delim : List Nat),
      delim <:+: extractGo img delim [] [] (stepsOf pixels alloc) →
      delim <:+ extractGo img delim [] [] (stepsOf pixels alloc)) ∧
    (∀ (img : Img) (alloc : List (Nat × Nat)) (pixels delim : List Nat),
      delim <:+ extractGo img delim [] [] (stepsOf pixels alloc) →
      decode img alloc pixels delim =
        some ((extractGo img delim [] [] (stepsOf pixels alloc)).take
          ((extractGo img delim [] [] (stepsOf pixels alloc)).length -
            delim.length))) ∧
    (∀ (img : Img) (alloc : List (Nat × Nat)) (pixels delim : List Nat),
      ¬ delim <:+: extractGo img delim [] [] (stepsOf pixels alloc) →
      decode img alloc pixels delim = none) := by
  refine ⟨?_, ?_, ?_, ?_⟩
  · intro img delim acc msg steps h
    exact extractGo_stop img delim acc msg steps h
  · intro img alloc pixels delim h
    exact extractGo_occurrence_suffix_start img delim _ h
  · intro img alloc pixels delim h
    have hinf : delim <:+: extractGo img delim [] []
        (stepsOf pixels alloc) := by
      obtain ⟨t, ht⟩ := h
      exact ⟨t, [], by rw [List.append_nil, ht]⟩
    simp only [decode]
    rw [if_pos hinf, removeSuffix, if_pos h]
  · intro img alloc pixels delim h
    simp only [decode]
    rw [if_neg h]

/-- Witness for C7 at concrete instances of each conjunct. -/
theorem c7_witness :
    extractGo img0 [35] [] [35] [] = [35] ∧
    ([] : List Nat) <:+ extractGo img0 [] [] [] (stepsOf [] []) ∧
    decode img0 [] [] [] =
      some ((extractGo img0 [] [] [] (stepsOf [] [])).take
        ((extractGo img0 [] [] [] (stepsOf [] [])).length -
          ([] : List Nat).length)) ∧
    decode img0 [] [] [35] = none := by
  refine ⟨?_, ?_, ?_, ?_⟩
  · exact c7_delimiter_outcomes.1 img0 [35] [] [35] [] (by decide)
  · exact c7_delimiter_outcomes.2.1 img0 [] [] [] (by decide)
  · exact c7_delimiter_outcomes.2.2.1 img0 [] [] [] (by decide)
  · exact c7_delimiter_outcomes.2.2.2 img0 [] [] [35] (by decide)

/-- C8: with the Hill cipher selected, a ciphertext longer than the
current character limit makes encode abort with the over-limit error
before any embedding: no stego image is produced, so the source pixel
buffer is never subjected to a truncated embed. -/
theorem c8_hill_over_limit (limit : Int) (img : Img)
    (alloc : List (Nat × Nat)) (pixels : List Nat)
    (delim ciphertext : List Nat)
    (hlong : limit < (ciphertext.length : Int)) :
    encodeWithLimit true limit img alloc pixels delim ciphertext = none := by
  rw [encodeWithLimit, if_pos ⟨rfl, hlong⟩]

/-- Witness for C8: a one-character Hill ciphertext over a zero limit. -/
theorem c8_witness :
    encodeWithLimit true 0 img0 [(0, 1)] (List.range 16) [35] [72] = none :=
  c8_hill_over_limit 0 img0 [(0, 1)] (List.range 16) [35] [72] (by decide)

set_option maxRecDepth 8192 in
/-- C9: the brute-force candidate list has exactly 9 ^ 3 = 729 entries,
its members are exactly the 0-dropped enumerations of every per-band LSB
choice in [0, 8] over the 3 bands, the search over it returns the first
candidate whose extraction ends with the delimiter, and it reports no
hidden message (`none`) when no candidate succeeds. -/
theorem c9_brute_force :
    possibilities.length = 729 ∧
    (∀ cand : List (Nat × Nat), cand ∈ possibilities ↔
      ∃ t : List Nat, t.length = bandCount ∧ (∀ x ∈ t, x ≤ B) ∧
        cand = compressEnum t) ∧
    (∀ (img : Img) (delim pixels : List Nat)
        (pre : List (List (Nat × Nat))) (c : List (Nat × Nat))
        (post : List (List (Nat × Nat))),
      possibilities = pre ++ c :: post →
      (∀ c2 ∈ pre, ¬ delim <:+ bruteTry img delim pixels c2) →
      delim <:+ bruteTry img delim pixels c →
      bruteGo img delim pixels possibilities =
        some (bruteTry img delim pixels c)) ∧
    (∀ (img : Img) (delim pixels : List Nat),
      (∀ c ∈ possibilities, ¬ delim <:+ bruteTry img delim pixels c) →
      bruteGo img delim pixels possibilities = none) := by
  refine ⟨rfl, ?_, ?_, ?_⟩
  · intro cand
    rw [possibilities, List.mem_map]
    constructor
    · rintro ⟨t, ht, hrfl⟩
      obtain ⟨hlen, hx⟩ := (pyProduct_mem (B + 1) bandCount t).mp ht
      exact ⟨t, hlen, fun x hx2 => by have := hx x hx2; omega, hrfl.symm⟩
    · rintro ⟨t, hlen, hx, hrfl⟩
      exact ⟨t, (pyProduct_mem (B + 1) bandCount t).mpr
        ⟨hlen, fun x hx2 => by have := hx x hx2; omega⟩, hrfl.symm⟩
  · intro img delim pixels pre c post heq hpre hc
    rw [heq]
    exact bruteGo_found img delim pixels pre c post hpre hc
  · intro img delim pixels h
    exact bruteGo_none img delim pixels possibilities h

set_option maxRecDepth 8192 in
/-- Witness for C9: membership of the empty allocation, a first-candidate
hit with the empty delimiter, and the all-fail outcome with delimiter "#"
on an empty traversal. -/
theorem c9_witness :
    (([] : List (Nat × Nat)) ∈ possibilities ∧
      bruteGo img0 [] [] possibilities =
        some (bruteTry img0 [] [] []) ∧
      bruteGo img0 [35] [] possibilities = none) := by
  refine ⟨?_, ?_, ?_⟩
  · exact (c9_brute_force.2.1 []).mpr ⟨[0, 0, 0], by decide, by decide,
      by decide⟩
  · exact c9_brute_force.2.2.1 img0 [] [] [] [] possibilities.tail rfl
      (by decide) (by decide)
  · exact c9_brute_force.2.2.2 img0 [35] [] (by decide)

/-- C10: a final partial embedding step with r < lsb remaining bits packs
a bit string of length exactly 8 (so the written value stays below 256),
keeps both the high (8 - lsb) bits and the low (lsb - r) bits of the old
value, and overwrites exactly the r bits just below the high field with
the remaining message bits. -/
theorem c10_final_chunk_pack (v l r : Nat) (chunk : List Bool)
    (hv : v < 256) (hl : l ≤ B) (hr : chunk.length = r) (hrl : r ≤ l) :
    (packBits (natToBits B v) l chunk).length = B ∧
    packVal v l chunk < 256 ∧
    packVal v l chunk / 2 ^ l = v / 2 ^ l ∧
    packVal v l chunk % 2 ^ (l - r) = v % 2 ^ (l - r) ∧
    packVal v l chunk / 2 ^ (l - r) % 2 ^ r = bitsToNat chunk := by
  subst hr
  obtain ⟨h1, h2, h3⟩ := packVal_decomp v l chunk hv hl hrl
  exact ⟨packBits_length v l chunk hl hrl, packVal_lt v l chunk hl hrl,
    h1, h2, h3⟩

/-- Witness for C10: packing a single leftover bit into a 3-bit slot of
the byte 170. -/
theorem c10_witness :
    (packBits (natToBits B 170) 3 [true]).length = B ∧
    packVal 170 3 [true] < 256 ∧
    packVal 170 3 [true] / 2 ^ 3 = 170 / 2 ^ 3 ∧
    packVal 170 3 [true] % 2 ^ (3 - 1) = 170 % 2 ^ (3 - 1) ∧
    packVal 170 3 [true] / 2 ^ (3 - 1) % 2 ^ 1 = bitsToNat [true] :=
  c10_final_chunk_pack 170 3 1 [true] (by decide) (by decide)
    (by decide) (by decide)

end Sten

